import Mathlib

/-!
Shallow embedding of the habit-tracker backend (`habits/services/habit_stats.py`,
`habits/services/gamification.py`, `habits/schema.py`).

Calendar dates are modelled as integers (`Int`): `d + 1` is the next day and
`d - 1` the previous day, matching `timedelta(days=1)` arithmetic on `date`
objects.  A habit's set of check-in dates is a `Finset Int` (the database has
a unique constraint on `(habit, date)`, so check-ins of one habit form a set
of dates).  Django query results (`values_list ... order_by`) are modelled as
sorted lists obtained from that `Finset`.  Python `dict`s keyed by strings are
modelled as association lists with insertion at the end, which matches
insertion-order semantics of Python dicts; `None`-able integers are `Option
Int`, and Python's floor division `//` is `Int.fdiv`.
-/

namespace HabitTracker

/-! ### habit_stats.current_streak, prefetched path

`current_streak` with prefetched check-ins walks backwards from `today`
while the day is in the set of prefetched dates:

    streak = 0
    day = today
    while day in prefetched_dates:
        streak += 1
        day -= timedelta(days=1)
    return streak

The loop terminates because the visited days are distinct members of the
finite set: each iteration removes one element from the part of the set
that is `≤ day`. -/

def streakWalk (dates : Finset Int) (day : Int) : Nat :=
  if h : day ∈ dates then streakWalk dates (day - 1) + 1 else 0
termination_by (dates.filter (fun x => x ≤ day)).card
decreasing_by
  apply Finset.card_lt_card
  constructor
  · intro x hx
    simp only [Finset.mem_filter] at hx ⊢
    exact ⟨hx.1, by omega⟩
  · intro hsub
    have hday : day ∈ dates.filter (fun x => x ≤ day) := by
      simp only [Finset.mem_filter]
      exact ⟨h, le_refl _⟩
    have := hsub hday
    simp only [Finset.mem_filter] at this
    omega

/-! ### habit_stats.current_streak, database fallback path

    dates = list(habit.checkins.filter(date__lte=today)
                 .values_list("date", flat=True).distinct().order_by("-date"))
    if not dates or dates[0] != today: return 0
    streak = 1
    expected = today - timedelta(days=1)
    for d in dates[1:]:
        if d == expected:
            streak += 1
            expected -= timedelta(days=1)
        elif d < expected:
            break
    return streak
-/

def dbStreakLoop : List Int → Int → Nat → Nat
  | [], _, streak => streak
  | d :: rest, expected, streak =>
    if d = expected then dbStreakLoop rest (expected - 1) (streak + 1)
    else if d < expected then streak
    else dbStreakLoop rest expected streak

/-- The distinct dates of a `Finset Int`, sorted descending (`order_by("-date")`). -/
def descList (s : Finset Int) : List Int :=
  (s.sort (· ≤ ·)).reverse

def currentStreakDB (today : Int) (dates : Finset Int) : Nat :=
  match descList (dates.filter (fun d => d ≤ today)) with
  | [] => 0
  | d :: rest => if d = today then dbStreakLoop rest (today - 1) 1 else 0

/-- `current_streak(habit)`: uses the backward day-walk over prefetched dates
when the prefetch cache is present, otherwise the database scan.  In a
consistent cache the prefetched check-ins are exactly the habit's check-ins,
so both paths see the same date set. -/
def current_streak (today : Int) (prefetched : Bool) (dates : Finset Int) : Nat :=
  if prefetched then streakWalk dates today
  else currentStreakDB today dates

/-! ### habit_stats.best_streak

    dates = sorted distinct check-in dates (ascending)
    if not dates: return 0
    best = 1
    cur = 1
    for prev, nxt in zip(dates, dates[1:]):
        if nxt == prev + timedelta(days=1):
            cur += 1
            if cur > best: best = cur
        else:
            cur = 1
    return best
-/

def bestStreakGo : Int → List Int → Nat → Nat → Nat
  | _, [], _, best => best
  | prev, nxt :: rest, cur, best =>
    if nxt = prev + 1 then
      bestStreakGo nxt rest (cur + 1) (if cur + 1 > best then cur + 1 else best)
    else
      bestStreakGo nxt rest 1 best

def best_streak (dates : Finset Int) : Nat :=
  match dates.sort (· ≤ ·) with
  | [] => 0
  | d :: rest => bestStreakGo d rest 1 1

/-! ### habit_stats.last_7_days_count and the with_habit_stats annotation

The annotation counts distinct check-in rows whose date lies in
`(today - 6, today)` inclusive; the fallback counts the rows of
`habit.checkins.filter(date__range=(start, today))`.  A habit's check-ins
are rows with pairwise distinct dates (unique constraint), modelled as a
list of dates. -/

def last_7_days_count_anno (today : Int) (checkinDates : List Int) : Nat :=
  (checkinDates.toFinset.filter (fun d => today - 6 ≤ d ∧ d ≤ today)).card

def last_7_days_count (today : Int) (checkinDates : List Int) : Nat :=
  (checkinDates.filter (fun d => today - 6 ≤ d ∧ d ≤ today)).length

/-! ### gamification.level_from_xp

    level = 1
    remaining = total_xp
    while True:
        cost = 100 * level
        if remaining < cost: return level
        remaining -= cost
        level += 1

The loop variable `level` is `l + 1` for the `Nat` argument `l`, so the cost
is always at least 100 and `remaining` strictly decreases while nonnegative. -/

def levelLoop (l : Nat) (remaining : Int) : Nat :=
  if remaining < 100 * ((l : Int) + 1) then l + 1
  else levelLoop (l + 1) (remaining - 100 * ((l : Int) + 1))
termination_by remaining.toNat
decreasing_by omega

def level_from_xp (total_xp : Int) : Int :=
  (levelLoop 0 total_xp : Nat)

/-! ### gamification.compute_xp_award -/

structure XPAwardBreakdown where
  base : Int
  streak_bonus : Int
  minutes_bonus : Int
deriving Repr, DecidableEq

def XPAwardBreakdown.total (b : XPAwardBreakdown) : Int :=
  b.base + b.streak_bonus + b.minutes_bonus

def compute_xp_award (current_streak : Int) (minutes_spent : Option Int) :
    XPAwardBreakdown :=
  { base := 10
    streak_bonus := min (2 * max current_streak 0) 20
    minutes_bonus :=
      match minutes_spent with
      | none => 0
      | some m => min (m.fdiv 10) 30 }

/-! ### Player profile and check-in rows

`models.PlayerProfile` carries `total_xp`, `level`, `total_minutes_logged`
and a JSON dict `achievements_unlocked` mapping achievement key to the ISO
timestamp at which it was unlocked.  The dict is modelled as an association
list with new keys appended at the end. -/

structure PlayerProfile where
  total_xp : Int
  level : Int
  total_minutes_logged : Int
  achievements_unlocked : List (String × String)
deriving Repr, DecidableEq

structure CheckInRow where
  date : Int
  minutes_spent : Option Int
  xp_awarded : Int
deriving Repr, DecidableEq

/-- `if key not in unlocked and cond: unlocked[key] = now_iso` -/
def addAchievement (unlocked : List (String × String)) (key : String)
    (cond : Bool) (now_iso : String) : List (String × String) :=
  if (unlocked.lookup key).isNone && cond then unlocked ++ [(key, now_iso)]
  else unlocked

/-! ### gamification.apply_checkin_reward

    breakdown = compute_xp_award(current_streak=current_streak,
                                 minutes_spent=checkin.minutes_spent)
    checkin.xp_awarded = breakdown.total
    profile.total_xp += breakdown.total
    if checkin.minutes_spent:
        profile.total_minutes_logged += checkin.minutes_spent
    profile.level = level_from_xp(profile.total_xp)
    ... three achievement checks ...

Note the Python truthiness test `if checkin.minutes_spent:` is false both
for `None` and for `0`. -/

def apply_checkin_reward (profile : PlayerProfile) (checkin : CheckInRow)
    (current_streak : Int) (total_checkins_for_user : Int) (now_iso : String) :
    PlayerProfile × CheckInRow :=
  let breakdown := compute_xp_award current_streak checkin.minutes_spent
  let checkin1 := { checkin with xp_awarded := breakdown.total }
  let xp1 := profile.total_xp + breakdown.total
  let minutes1 :=
    match checkin.minutes_spent with
    | some m =>
      if m ≠ 0 then profile.total_minutes_logged + m
      else profile.total_minutes_logged
    | none => profile.total_minutes_logged
  let unlocked1 := addAchievement profile.achievements_unlocked "first_step"
    (decide (total_checkins_for_user ≥ 1)) now_iso
  let unlocked2 := addAchievement unlocked1 "on_fire"
    (decide (current_streak ≥ 7)) now_iso
  let unlocked3 := addAchievement unlocked2 "ten_hours"
    (decide (minutes1 ≥ 600)) now_iso
  ({ total_xp := xp1
     level := level_from_xp xp1
     total_minutes_logged := minutes1
     achievements_unlocked := unlocked3 }, checkin1)

/-! ### gamification.reconcile_profile_from_history

Database aggregates are passed as their results: `userCheckinMinutes` is
the list of `minutes_spent` values of all the user's check-ins (so its
length is the user's total check-in count and `Sum("minutes_spent")`
skips the `None` entries), and `habitDates` is the list of per-habit
check-in date sets (each habit is fetched without prefetch, so
`current_streak` takes the database path). -/

def maxStreakFold (streaks : List Nat) : Nat :=
  streaks.foldl (fun acc s => if s > acc then s else acc) 0

def reconcile_profile_from_history (profile : PlayerProfile)
    (userCheckinMinutes : List (Option Int)) (habitDates : List (Finset Int))
    (today : Int) (now_iso : String) : PlayerProfile :=
  let before_unlocked := profile.achievements_unlocked
  let before_minutes := profile.total_minutes_logged
  let total_minutes := (userCheckinMinutes.filterMap id).sum
  let total_checkins_for_user := userCheckinMinutes.length
  let max_streak :=
    maxStreakFold (habitDates.map (fun s => currentStreakDB today s))
  let unlocked1 := addAchievement before_unlocked "first_step"
    (decide (total_checkins_for_user ≥ 1)) now_iso
  let unlocked2 := addAchievement unlocked1 "on_fire"
    (decide (max_streak ≥ 7)) now_iso
  let unlocked3 := addAchievement unlocked2 "ten_hours"
    (decide (total_minutes ≥ 600)) now_iso
  if unlocked3 ≠ before_unlocked ∨ total_minutes ≠ before_minutes then
    { profile with
      total_minutes_logged := total_minutes
      achievements_unlocked := unlocked3 }
  else
    { profile with total_minutes_logged := total_minutes }

/-! ### schema.CheckInToday.mutate

State relevant to one mutation: the target habit's check-in rows and the
user's player profile.  Rows of the user's other habits enter only through
the `total_for_user` count.  `get_or_create` keyed on `(habit, date)` is a
lookup on the date; on the duplicate path nothing is written. -/

structure HabitState where
  checkins : List CheckInRow
  profile : PlayerProfile
deriving Repr, DecidableEq

structure CheckInResult where
  state : HabitState
  created : Bool
  checkin : CheckInRow
deriving Repr, DecidableEq

def checkInToday (st : HabitState) (today : Int) (dateArg : Option Int)
    (minutes_spent : Option Int) (otherHabitsCount : Nat) (now_iso : String) :
    CheckInResult :=
  let d := dateArg.getD today
  match st.checkins.find? (fun c => c.date == d) with
  | some existing => { state := st, created := false, checkin := existing }
  | none =>
    let checkin : CheckInRow :=
      { date := d, minutes_spent := minutes_spent, xp_awarded := 0 }
    let checkins1 := checkin :: st.checkins
    let streak := currentStreakDB today (checkins1.map (fun c => c.date)).toFinset
    let total_for_user : Int := ((checkins1.length + otherHabitsCount : Nat) : Int)
    let res := apply_checkin_reward st.profile checkin (streak : Int)
      total_for_user now_iso
    { state := { checkins := res.2 :: st.checkins, profile := res.1 }
      created := true
      checkin := res.2 }

/-! ## Lemmas about the backward day-walk -/

theorem streakWalk_of_mem {dates : Finset Int} {day : Int} (h : day ∈ dates) :
    streakWalk dates day = streakWalk dates (day - 1) + 1 := by
  rw [streakWalk]
  simp [h]

theorem streakWalk_of_notMem {dates : Finset Int} {day : Int} (h : day ∉ dates) :
    streakWalk dates day = 0 := by
  rw [streakWalk]
  simp [h]

/-- The walk result is the length of the block of consecutive days ending at
`day` that all lie in `dates`: every day it counted is a check-in day, and
the day just before the counted block is not. -/
theorem streakWalk_spec (dates : Finset Int) (day : Int) :
    (∀ i : Nat, i < streakWalk dates day → day - (i : Int) ∈ dates) ∧
      day - (streakWalk dates day : Int) ∉ dates := by
  induction day using streakWalk.induct dates with
  | case1 x hx ih =>
    rw [streakWalk_of_mem hx]
    constructor
    · intro i hi
      match i with
      | 0 => simpa using hx
      | j + 1 =>
        have hj : j < streakWalk dates (x - 1) := by omega
        have := ih.1 j hj
        have hxe : x - ((j : Int) + 1) = x - 1 - (j : Int) := by ring
        rw [show ((j + 1 : Nat) : Int) = (j : Int) + 1 by push_cast; ring, hxe]
        exact this
    · have := ih.2
      have hxe : x - ((streakWalk dates (x - 1) : Int) + 1) =
          x - 1 - (streakWalk dates (x - 1) : Int) := by ring
      rw [show ((streakWalk dates (x - 1) + 1 : Nat) : Int) =
        (streakWalk dates (x - 1) : Int) + 1 by push_cast; ring, hxe]
      exact this
  | case2 x hx =>
    rw [streakWalk_of_notMem hx]
    refine ⟨fun i hi => absurd hi (by omega), by simpa using hx⟩

/-- The characterization of `streakWalk_spec` determines the walk uniquely. -/
theorem streakWalk_unique {dates : Finset Int} {day : Int} {n : Nat}
    (h1 : ∀ i : Nat, i < n → day - (i : Int) ∈ dates)
    (h2 : day - (n : Int) ∉ dates) :
    streakWalk dates day = n := by
  rcases lt_trichotomy (streakWalk dates day) n with h | h | h
  · exact absurd (h1 _ h) (streakWalk_spec dates day).2
  · exact h
  · exact absurd ((streakWalk_spec dates day).1 n h) h2

/-- The walk only inspects days at or before the start day. -/
theorem streakWalk_congr {S T : Finset Int} {day : Int}
    (h : ∀ x : Int, x ≤ day → (x ∈ S ↔ x ∈ T)) :
    streakWalk S day = streakWalk T day := by
  apply streakWalk_unique
  · intro i hi
    exact (h _ (by omega)).2 ((streakWalk_spec T day).1 i hi)
  · intro hc
    exact (streakWalk_spec T day).2 ((h _ (by omega)).1 hc)

/-- Check-ins dated after `today` do not affect the backward walk. -/
theorem streakWalk_filter_le (S : Finset Int) (today : Int) :
    streakWalk (S.filter (fun d => d ≤ today)) today = streakWalk S today := by
  apply streakWalk_congr
  intro x hx
  simp [Finset.mem_filter, hx]

/-- The walk counts distinct members of the finite set, so it is bounded by
its cardinality (in particular the loop terminates). -/
theorem streakWalk_le_card (dates : Finset Int) (day : Int) :
    streakWalk dates day ≤ dates.card := by
  have h := (streakWalk_spec dates day).1
  calc streakWalk dates day = (Finset.range (streakWalk dates day)).card := by
        rw [Finset.card_range]
    _ ≤ dates.card := by
        refine Finset.card_le_card_of_injOn (fun i => day - (i : Int)) ?_ ?_
        · intro i hi
          exact h i (Finset.mem_range.1 hi)
        · intro a _ b _ hab
          simp only at hab
          omega

/-! ## The database scan computes the same streak -/

theorem dbStreakLoop_eq (S : Finset Int) :
    ∀ (l : List Int) (expected : Int) (streak : Nat),
      l.Pairwise (fun a b => b < a) →
      (∀ x : Int, x ∈ l ↔ x ∈ S ∧ x ≤ expected) →
      dbStreakLoop l expected streak = streak + streakWalk S expected := by
  intro l
  induction l with
  | nil =>
    intro expected streak _ hmem
    have hni : expected ∉ S := by
      intro hc
      simpa using (hmem expected).2 ⟨hc, le_refl _⟩
    simp [dbStreakLoop, streakWalk_of_notMem hni]
  | cons d rest ih =>
    intro expected streak hpair hmem
    have hd : d ∈ S ∧ d ≤ expected := (hmem d).1 (List.mem_cons_self d rest)
    have hhead : ∀ x ∈ rest, x < d := (List.pairwise_cons.1 hpair).1
    have htail : rest.Pairwise (fun a b => b < a) := (List.pairwise_cons.1 hpair).2
    by_cases hde : d = expected
    · subst hde
      rw [show dbStreakLoop (d :: rest) d streak =
          dbStreakLoop rest (d - 1) (streak + 1) by simp [dbStreakLoop]]
      rw [ih (d - 1) (streak + 1) htail ?_]
      · rw [streakWalk_of_mem hd.1]
        omega
      · intro x
        constructor
        · intro hx
          have hxd := hhead x hx
          have := (hmem x).1 (List.mem_cons_of_mem d hx)
          exact ⟨this.1, by omega⟩
        · intro hx
          have hxl : x ∈ d :: rest := (hmem x).2 ⟨hx.1, by omega⟩
          rcases List.mem_cons.1 hxl with h | h
          · omega
          · exact h
    · have hdlt : d < expected := lt_of_le_of_ne hd.2 hde
      rw [show dbStreakLoop (d :: rest) expected streak = streak by
        simp [dbStreakLoop, hde, hdlt]]
      have hni : expected ∉ S := by
        intro hc
        have : expected ∈ d :: rest := (hmem expected).2 ⟨hc, le_refl _⟩
        rcases List.mem_cons.1 this with h | h
        · omega
        · have := hhead _ h
          omega
      rw [streakWalk_of_notMem hni]
      omega

theorem descList_mem {s : Finset Int} {x : Int} : x ∈ descList s ↔ x ∈ s := by
  simp [descList, Finset.mem_sort]

theorem descList_pairwise (s : Finset Int) :
    (descList s).Pairwise (fun a b => b < a) := by
  rw [descList]
  exact List.pairwise_reverse.mpr (by simpa using Finset.sort_sorted_lt s)

/-- The database-backed scan of `current_streak` agrees with the backward
day-walk over the full date set. -/
theorem currentStreakDB_eq (today : Int) (S : Finset Int) :
    currentStreakDB today S = streakWalk S today := by
  have hmemF : ∀ x : Int,
      x ∈ descList (S.filter (fun d => d ≤ today)) ↔ x ∈ S ∧ x ≤ today := by
    intro x
    rw [descList_mem]
    simp [Finset.mem_filter]
  have hpairF := descList_pairwise (S.filter (fun d => d ≤ today))
  unfold currentStreakDB
  cases hl : descList (S.filter (fun d => d ≤ today)) with
  | nil =>
    rw [hl] at hmemF
    have hni : today ∉ S := by
      intro hc
      simpa using (hmemF today).2 ⟨hc, le_refl _⟩
    simp [streakWalk_of_notMem hni]
  | cons d rest =>
    rw [hl] at hmemF hpairF
    have hd : d ∈ S ∧ d ≤ today := (hmemF d).1 (List.mem_cons_self d rest)
    have hhead : ∀ x ∈ rest, x < d := (List.pairwise_cons.1 hpairF).1
    have htail : rest.Pairwise (fun a b => b < a) := (List.pairwise_cons.1 hpairF).2
    show (if d = today then dbStreakLoop rest (today - 1) 1 else 0) = streakWalk S today
    by_cases hdt : d = today
    · subst hdt
      rw [if_pos rfl]
      rw [dbStreakLoop_eq S rest (d - 1) 1 htail ?_]
      · rw [streakWalk_of_mem hd.1]
        omega
      · intro x
        constructor
        · intro hx
          have hxd := hhead x hx
          have := (hmemF x).1 (List.mem_cons_of_mem d hx)
          exact ⟨this.1, by omega⟩
        · intro hx
          have hxl : x ∈ d :: rest := (hmemF x).2 ⟨hx.1, by omega⟩
          rcases List.mem_cons.1 hxl with h | h
          · omega
          · exact h
    · rw [if_neg hdt]
      have hni : today ∉ S := by
        intro hc
        have : today ∈ d :: rest := (hmemF today).2 ⟨hc, le_refl _⟩
        rcases List.mem_cons.1 this with h | h
        · exact hdt h.symm
        · have := hhead _ h
          omega
      rw [streakWalk_of_notMem hni]

/-! ## best_streak computes the longest run of consecutive dates -/

/-- Loop invariant for `bestStreakGo`: walking the ascending sorted list of
dates, `cur` is the length of the run ending at `prev` and `best` is the
longest run ending at any date not after `prev`. -/
theorem bestStreakGo_spec (S : Finset Int) :
    ∀ (rest : List Int) (prev : Int) (cur best : Nat),
      prev ∈ S →
      rest.Pairwise (fun a b => a < b) →
      (∀ x : Int, x ∈ rest ↔ x ∈ S ∧ prev < x) →
      cur = streakWalk S prev →
      best = (S.filter (fun x => x ≤ prev)).sup (fun d => streakWalk S d) →
      bestStreakGo prev rest cur best = S.sup (fun d => streakWalk S d) := by
  intro rest
  induction rest with
  | nil =>
    intro prev cur best _ _ hmem _ hbest
    have hfull : S.filter (fun x => x ≤ prev) = S := by
      ext x
      simp only [Finset.mem_filter, and_iff_left_iff_imp]
      intro hx
      by_contra hgt
      push_neg at hgt
      exact absurd ((hmem x).2 ⟨hx, hgt⟩) (List.not_mem_nil x)
    rw [show bestStreakGo prev [] cur best = best from rfl, hbest, hfull]
  | cons nxt rest ih =>
    intro prev cur best hprev hpair hmem hcur hbest
    have hnxt : nxt ∈ S ∧ prev < nxt := (hmem nxt).1 (List.mem_cons_self nxt rest)
    have hhead : ∀ x ∈ rest, nxt < x := (List.pairwise_cons.1 hpair).1
    have htail : rest.Pairwise (fun a b => a < b) := (List.pairwise_cons.1 hpair).2
    have hgap : ∀ y : Int, y ∈ S → prev < y → y < nxt → False := by
      intro y hy h1 h2
      have hyl : y ∈ nxt :: rest := (hmem y).2 ⟨hy, h1⟩
      rcases List.mem_cons.1 hyl with h | h
      · omega
      · have := hhead y h
        omega
    have hmem' : ∀ x : Int, x ∈ rest ↔ x ∈ S ∧ nxt < x := by
      intro x
      constructor
      · intro hx
        exact ⟨((hmem x).1 (List.mem_cons_of_mem _ hx)).1, hhead x hx⟩
      · intro hx
        have hxl : x ∈ nxt :: rest := (hmem x).2 ⟨hx.1, by omega⟩
        rcases List.mem_cons.1 hxl with h | h
        · omega
        · exact h
    have hfilter : S.filter (fun x => x ≤ nxt) =
        insert nxt (S.filter (fun x => x ≤ prev)) := by
      ext y
      simp only [Finset.mem_filter, Finset.mem_insert]
      constructor
      · intro hy
        rcases lt_trichotomy y nxt with h | h | h
        · by_cases hyp : y ≤ prev
          · exact Or.inr ⟨hy.1, hyp⟩
          · exact absurd (hgap y hy.1 (by omega) h) not_false
        · exact Or.inl h
        · omega
      · intro hy
        rcases hy with rfl | ⟨hy1, hy2⟩
        · exact ⟨hnxt.1, le_refl _⟩
        · exact ⟨hy1, by omega⟩
    have hsup : (S.filter (fun x => x ≤ nxt)).sup (fun d => streakWalk S d) =
        streakWalk S nxt ⊔ best := by
      rw [hfilter, Finset.sup_insert, hbest]
    have hbest1 : 1 ≤ best := by
      have hmemf : prev ∈ S.filter (fun x => x ≤ prev) := by
        simp [hprev]
      have hle : streakWalk S prev ≤
          (S.filter (fun x => x ≤ prev)).sup (fun d => streakWalk S d) :=
        Finset.le_sup hmemf
      rw [streakWalk_of_mem hprev] at hle
      omega
    by_cases hstep : nxt = prev + 1
    · have hw : streakWalk S nxt = cur + 1 := by
        rw [streakWalk_of_mem hnxt.1, hstep]
        simp [hcur]
      rw [show bestStreakGo prev (nxt :: rest) cur best =
          bestStreakGo nxt rest (cur + 1)
            (if cur + 1 > best then cur + 1 else best) by
        simp [bestStreakGo, hstep]]
      apply ih nxt (cur + 1) _ hnxt.1 htail hmem' hw.symm
      rw [hsup, hw, sup_eq_max, Nat.max_def]
      split_ifs <;> omega
    · have hgap1 : nxt - 1 ∉ S := by
        intro hc
        exact hgap (nxt - 1) hc (by omega) (by omega)
      have hw : streakWalk S nxt = 1 := by
        rw [streakWalk_of_mem hnxt.1, streakWalk_of_notMem hgap1]
      rw [show bestStreakGo prev (nxt :: rest) cur best =
          bestStreakGo nxt rest 1 best by simp [bestStreakGo, hstep]]
      apply ih nxt 1 best hnxt.1 htail hmem' hw.symm
      rw [hsup, hw]
      exact (sup_eq_right.mpr hbest1).symm

/-- `best_streak` equals the longest backward walk started anywhere in the
set of check-in dates. -/
theorem best_streak_eq_sup (S : Finset Int) :
    best_streak S = S.sup (fun d => streakWalk S d) := by
  unfold best_streak
  cases hl : S.sort (· ≤ ·) with
  | nil =>
    have hS : S = ∅ := by
      ext x
      rw [← Finset.mem_sort (· ≤ ·), hl]
      simp
    rw [hS]
    simp
  | cons d rest =>
    have hmem : ∀ x : Int, x ∈ d :: rest ↔ x ∈ S := by
      intro x
      rw [← hl, Finset.mem_sort]
    have hsorted : (d :: rest).Pairwise (fun a b => a < b) := by
      have := Finset.sort_sorted_lt S
      rw [hl] at this
      exact this
    have hd : d ∈ S := (hmem d).1 (List.mem_cons_self d rest)
    have hhead : ∀ x ∈ rest, d < x := (List.pairwise_cons.1 hsorted).1
    have htail : rest.Pairwise (fun a b => a < b) := (List.pairwise_cons.1 hsorted).2
    have hmem' : ∀ x : Int, x ∈ rest ↔ x ∈ S ∧ d < x := by
      intro x
      constructor
      · intro hx
        exact ⟨(hmem x).1 (List.mem_cons_of_mem _ hx), hhead x hx⟩
      · intro hx
        rcases List.mem_cons.1 ((hmem x).2 hx.1) with h | h
        · omega
        · exact h
    have hw1 : streakWalk S d = 1 := by
      have hd1 : d - 1 ∉ S := by
        intro hc
        rcases List.mem_cons.1 ((hmem (d - 1)).2 hc) with h | h
        · omega
        · have := hhead _ h
          omega
      rw [streakWalk_of_mem hd, streakWalk_of_notMem hd1]
    have hsingle : S.filter (fun x => x ≤ d) = {d} := by
      ext y
      simp only [Finset.mem_filter, Finset.mem_singleton]
      constructor
      · intro hy
        rcases List.mem_cons.1 ((hmem y).2 hy.1) with h | h
        · exact h
        · have := hhead _ h
          omega
      · intro hy
        subst hy
        exact ⟨hd, le_refl _⟩
    apply bestStreakGo_spec S rest d 1 1 hd htail hmem' hw1.symm
    rw [hsingle, Finset.sup_singleton, hw1]

/-- Specification-side notion: `S` contains `n` consecutive calendar dates
(a run of length `n`). -/
def hasRun (S : Finset Int) (n : Nat) : Prop :=
  ∃ a : Int, ∀ i : Nat, i < n → a + (i : Int) ∈ S

/-- A block of consecutive check-in days ending at `d` bounds the walk at
`d` from below. -/
theorem le_streakWalk_of_run {S : Finset Int} {d : Int} {n : Nat}
    (h : ∀ i : Nat, i < n → d - (i : Int) ∈ S) : n ≤ streakWalk S d := by
  by_contra hlt
  push_neg at hlt
  exact (streakWalk_spec S d).2 (h _ hlt)

/-- Claim C5: for every habit, `best_streak` returns the maximum length of a
run of consecutive calendar dates within the habit's set of distinct
check-in dates (the run need not end today): the habit's dates contain a
run of that length, no longer run exists, and the empty date set gives 0. -/
theorem C5_best_streak_max_run (S : Finset Int) :
    hasRun S (best_streak S) ∧
      (∀ n : Nat, hasRun S n → n ≤ best_streak S) ∧
      (S = ∅ → best_streak S = 0) := by
  rw [best_streak_eq_sup]
  refine ⟨?_, ?_, ?_⟩
  · rcases S.eq_empty_or_nonempty with rfl | hne
    · exact ⟨0, fun i hi => absurd hi (by simp)⟩
    · obtain ⟨d, hd, hsup⟩ := Finset.exists_mem_eq_sup S hne (fun d => streakWalk S d)
      rw [hsup]
      refine ⟨d - (streakWalk S d : Int) + 1, ?_⟩
      intro i hi
      have hj : streakWalk S d - 1 - i < streakWalk S d := by omega
      have hmem := (streakWalk_spec S d).1 _ hj
      have heq : d - ((streakWalk S d - 1 - i : Nat) : Int) =
          d - (streakWalk S d : Int) + 1 + (i : Int) := by omega
      rw [heq] at hmem
      exact hmem
  · rintro n ⟨a, ha⟩
    match n with
    | 0 => omega
    | m + 1 =>
      have hd : a + (m : Int) ∈ S := ha m (by omega)
      have hrun : ∀ i : Nat, i < m + 1 → a + (m : Int) - (i : Int) ∈ S := by
        intro i hi
        have hmem := ha (m - i) (by omega)
        have heq : a + ((m - i : Nat) : Int) = a + (m : Int) - (i : Int) := by omega
        rw [heq] at hmem
        exact hmem
      calc m + 1 ≤ streakWalk S (a + (m : Int)) := le_streakWalk_of_run hrun
        _ ≤ S.sup (fun d => streakWalk S d) := Finset.le_sup hd
  · rintro rfl
    simp

/-! ## Level curve -/

theorem levelLoop_eq (l : Nat) (r : Int) :
    levelLoop l r = if r < 100 * ((l : Int) + 1) then l + 1
      else levelLoop (l + 1) (r - 100 * ((l : Int) + 1)) := by
  rw [levelLoop]

/-- The loop of `level_from_xp` lands in the half-open interval of
cumulative costs: entering at level `l + 1` with `remaining = r ≥ 0`, the
returned level `L` satisfies
`50·(L−1)·L − 50·l·(l+1) ≤ r < 50·L·(L+1) − 50·l·(l+1)`. -/
theorem levelLoop_bracket (l : Nat) (r : Int) :
    0 ≤ r →
      (l : Int) + 1 ≤ (levelLoop l r : Int) ∧
      50 * ((levelLoop l r : Int) - 1) * (levelLoop l r : Int) -
        50 * (l : Int) * ((l : Int) + 1) ≤ r ∧
      r < 50 * (levelLoop l r : Int) * ((levelLoop l r : Int) + 1) -
        50 * (l : Int) * ((l : Int) + 1) := by
  induction l, r using levelLoop.induct with
  | case1 l r hr =>
    intro h0
    rw [levelLoop_eq, if_pos hr]
    push_cast
    refine ⟨by omega, by nlinarith, by nlinarith⟩
  | case2 l r hr ih =>
    intro h0
    rw [levelLoop_eq, if_neg hr]
    have h0' : 0 ≤ r - 100 * ((l : Int) + 1) := by omega
    obtain ⟨ih1, ih2, ih3⟩ := ih h0'
    push_cast at ih1 ih2 ih3 ⊢
    have key : 50 * ((l : Int) + 1) * ((l : Int) + 1 + 1) =
        50 * (l : Int) * ((l : Int) + 1) + 100 * ((l : Int) + 1) := by ring
    refine ⟨by omega, by linarith, by linarith⟩

/-- Claim C3: for every non-negative `total_xp`, `level_from_xp` returns the
unique level `L ≥ 1` with `50·L·(L−1) ≤ total_xp < 50·L·(L+1)` (XP needed
to advance from level `L` is `100·L`), and `apply_checkin_reward` sets the
profile's level to `level_from_xp` of its updated `total_xp`. -/
theorem C3_level_from_xp (total_xp : Int) (h : 0 ≤ total_xp) :
    1 ≤ level_from_xp total_xp ∧
    50 * level_from_xp total_xp * (level_from_xp total_xp - 1) ≤ total_xp ∧
    total_xp < 50 * level_from_xp total_xp * (level_from_xp total_xp + 1) ∧
    (∀ M : Int, 1 ≤ M → 50 * M * (M - 1) ≤ total_xp →
      total_xp < 50 * M * (M + 1) → M = level_from_xp total_xp) ∧
    (∀ (profile : PlayerProfile) (checkin : CheckInRow) (cs tot : Int)
      (now_iso : String),
      (apply_checkin_reward profile checkin cs tot now_iso).1.level =
        level_from_xp (apply_checkin_reward profile checkin cs tot now_iso).1.total_xp) := by
  obtain ⟨h1, h2, h3⟩ := levelLoop_bracket 0 total_xp h
  have hL : level_from_xp total_xp = (levelLoop 0 total_xp : Nat) := rfl
  rw [hL]
  push_cast at h1 h2 h3 ⊢
  set L : Int := ((levelLoop 0 total_xp : Nat) : Int) with hLdef
  have hb1 : 1 ≤ L := by omega
  have hb2 : 50 * L * (L - 1) ≤ total_xp := by nlinarith
  have hb3 : total_xp < 50 * L * (L + 1) := by nlinarith
  refine ⟨hb1, hb2, hb3, ?_, ?_⟩
  · intro M hM1 hM2 hM3
    rcases lt_trichotomy M L with hlt | heq | hgt
    · exfalso
      have hmul : M * (M + 1) ≤ (L - 1) * L :=
        mul_le_mul (by omega) (by omega) (by omega) (by omega)
      nlinarith
    · exact heq
    · exfalso
      have hmul : L * (L + 1) ≤ (M - 1) * M :=
        mul_le_mul (by omega) (by omega) (by omega) (by omega)
      nlinarith
  · intro profile checkin cs tot now_iso
    rfl

/-- Claim C9: the streak and level computations terminate on every input.  The
backward day-walk visits pairwise distinct members of the finite date set,
so its value — and hence its number of iterations — is bounded by the
set's cardinality; the `level_from_xp` loop returns level 1 on every
`total_xp` below 100, including negative values. -/
theorem C9_termination :
    (∀ (dates : Finset Int) (day : Int), streakWalk dates day ≤ dates.card) ∧
    (∀ total_xp : Int, total_xp < 100 → level_from_xp total_xp = 1) := by
  constructor
  · exact streakWalk_le_card
  · intro total_xp hxp
    unfold level_from_xp
    rw [levelLoop_eq, if_pos (by push_cast; omega)]
    rfl

/-- Claim C2: for every newly created check-in, `apply_checkin_reward`
increases the profile's `total_xp` by exactly base 10, plus a streak bonus
of `min(2·max(current_streak, 0), 20)`, plus a minutes bonus that is 0 when
`minutes_spent` is `None` and `min(minutes_spent // 10, 30)` otherwise, and
stores that same total in the check-in's `xp_awarded` field. -/
theorem C2_xp_award (profile : PlayerProfile) (checkin : CheckInRow)
    (cs tot : Int) (now_iso : String) :
    (apply_checkin_reward profile checkin cs tot now_iso).1.total_xp =
      profile.total_xp + (10 + min (2 * max cs 0) 20 +
        (match checkin.minutes_spent with
         | none => 0
         | some m => min (m.fdiv 10) 30)) ∧
    (apply_checkin_reward profile checkin cs tot now_iso).2.xp_awarded =
      10 + min (2 * max cs 0) 20 +
        (match checkin.minutes_spent with
         | none => 0
         | some m => min (m.fdiv 10) 30) := by
  cases h : checkin.minutes_spent <;>
    simp [apply_checkin_reward, compute_xp_award, XPAwardBreakdown.total, h]

/-! ## Achievement dictionary lemmas -/

theorem addAchievement_lookup_self (u : List (String × String)) (k : String)
    (c : Bool) (now_iso : String) :
    (addAchievement u k c now_iso).lookup k =
      match u.lookup k with
      | some v => some v
      | none => if c then some now_iso else none := by
  unfold addAchievement
  cases h : u.lookup k with
  | some v => simp [h]
  | none =>
    cases c with
    | false => simp [h]
    | true =>
      rw [if_pos (by simp [h]), List.lookup_append, h]
      simp [List.lookup]

theorem addAchievement_lookup_other (u : List (String × String))
    {k k' : String} (c : Bool) (now_iso : String) (hne : k' ≠ k) :
    (addAchievement u k c now_iso).lookup k' = u.lookup k' := by
  unfold addAchievement
  split
  · rw [List.lookup_append]
    have hone : List.lookup k' [(k, now_iso)] = none := by
      have hbeq : (k' == k) = false := beq_eq_false_iff_ne.mpr hne
      simp [List.lookup, hbeq]
    rw [hone]
    cases u.lookup k' <;> rfl
  · rfl

theorem addAchievement_lookup_mono {u : List (String × String)}
    {k k' v : String} {c : Bool} {now_iso : String}
    (h : u.lookup k' = some v) :
    (addAchievement u k c now_iso).lookup k' = some v := by
  unfold addAchievement
  split
  · rw [List.lookup_append, h]
    rfl
  · exact h

theorem addAchievement_length_le (u : List (String × String)) (k : String)
    (c : Bool) (now_iso : String) :
    u.length ≤ (addAchievement u k c now_iso).length := by
  unfold addAchievement
  split <;> simp

/-! ## Reconciliation helpers -/

/-- The fold over habit streaks reaches a threshold `c ≥ 1` exactly when
some habit's streak does. -/
theorem maxStreakFold_ge_iff {c : Nat} (hc : 1 ≤ c) (l : List Nat) :
    c ≤ maxStreakFold l ↔ ∃ x ∈ l, c ≤ x := by
  have hgen : ∀ (l : List Nat) (acc : Nat),
      c ≤ l.foldl (fun acc s => if s > acc then s else acc) acc ↔
        (c ≤ acc ∨ ∃ x ∈ l, c ≤ x) := by
    intro l
    induction l with
    | nil =>
      intro acc
      simp
    | cons x xs ih =>
      intro acc
      rw [List.foldl_cons, ih]
      by_cases hxa : x > acc
      · rw [if_pos hxa]
        constructor
        · rintro (h | ⟨y, hy, hcy⟩)
          · exact Or.inr ⟨x, List.mem_cons_self x xs, h⟩
          · exact Or.inr ⟨y, List.mem_cons_of_mem _ hy, hcy⟩
        · rintro (h | ⟨y, hy, hcy⟩)
          · left
            omega
          · rcases List.mem_cons.1 hy with rfl | hy'
            · exact Or.inl hcy
            · exact Or.inr ⟨y, hy', hcy⟩
      · rw [if_neg hxa]
        constructor
        · rintro (h | ⟨y, hy, hcy⟩)
          · exact Or.inl h
          · exact Or.inr ⟨y, List.mem_cons_of_mem _ hy, hcy⟩
        · rintro (h | ⟨y, hy, hcy⟩)
          · exact Or.inl h
          · rcases List.mem_cons.1 hy with rfl | hy'
            · left
              omega
            · exact Or.inr ⟨y, hy', hcy⟩
  rw [maxStreakFold, hgen]
  constructor
  · rintro (h | h)
    · omega
    · exact h
  · exact Or.inr

/-- The reconciled profile's achievement dict is the three-step
`addAchievement` chain over the previous dict (the `did_change` guard only
skips a write that would be the identity). -/
theorem reconcile_unlocked_eq (profile : PlayerProfile)
    (mins : List (Option Int)) (hd : List (Finset Int)) (today : Int)
    (now_iso : String) :
    (reconcile_profile_from_history profile mins hd today now_iso).achievements_unlocked =
      addAchievement (addAchievement (addAchievement profile.achievements_unlocked
          "first_step" (decide (mins.length ≥ 1)) now_iso)
        "on_fire" (decide (maxStreakFold
          (hd.map (fun s => currentStreakDB today s)) ≥ 7)) now_iso)
        "ten_hours" (decide ((mins.filterMap id).sum ≥ 600)) now_iso := by
  unfold reconcile_profile_from_history
  dsimp only
  split
  · rfl
  · rename_i hcond
    push_neg at hcond
    exact hcond.1.symm

theorem reconcile_minutes_eq (profile : PlayerProfile)
    (mins : List (Option Int)) (hd : List (Finset Int)) (today : Int)
    (now_iso : String) :
    (reconcile_profile_from_history profile mins hd today now_iso).total_minutes_logged =
      (mins.filterMap id).sum := by
  unfold reconcile_profile_from_history
  dsimp only
  split <;> rfl

/-- The awarded profile's achievement dict is the three-step
`addAchievement` chain over the previous dict. -/
theorem apply_unlocked_eq (p : PlayerProfile) (c : CheckInRow) (cs tot : Int)
    (now_iso : String) :
    (apply_checkin_reward p c cs tot now_iso).1.achievements_unlocked =
      addAchievement (addAchievement (addAchievement p.achievements_unlocked
          "first_step" (decide (tot ≥ 1)) now_iso)
        "on_fire" (decide (cs ≥ 7)) now_iso)
        "ten_hours"
        (decide ((apply_checkin_reward p c cs tot now_iso).1.total_minutes_logged ≥ 600))
        now_iso := rfl

/-- Claim C4: achievement unlocking adds `first_step` exactly when the
user's total check-in count is at least 1, `on_fire` exactly when the
relevant current streak is at least 7 (the streak passed to the reward; the
existence of a habit with streak at least 7 during reconciliation), and
`ten_hours` exactly when the profile's total minutes logged is at least
600; an achievement key already present keeps its original timestamp. -/
theorem C4_achievement_unlocking :
    (∀ (p : PlayerProfile) (c : CheckInRow) (cs tot : Int) (now_iso : String),
      ((apply_checkin_reward p c cs tot now_iso).1.achievements_unlocked.lookup
          "first_step" =
        match p.achievements_unlocked.lookup "first_step" with
        | some v => some v
        | none => if tot ≥ 1 then some now_iso else none) ∧
      ((apply_checkin_reward p c cs tot now_iso).1.achievements_unlocked.lookup
          "on_fire" =
        match p.achievements_unlocked.lookup "on_fire" with
        | some v => some v
        | none => if cs ≥ 7 then some now_iso else none) ∧
      ((apply_checkin_reward p c cs tot now_iso).1.achievements_unlocked.lookup
          "ten_hours" =
        match p.achievements_unlocked.lookup "ten_hours" with
        | some v => some v
        | none =>
          if (apply_checkin_reward p c cs tot now_iso).1.total_minutes_logged ≥ 600
          then some now_iso else none)) ∧
    (∀ (p : PlayerProfile) (mins : List (Option Int)) (hd : List (Finset Int))
      (today : Int) (now_iso : String),
      ((reconcile_profile_from_history p mins hd today now_iso).achievements_unlocked.lookup
          "first_step" =
        match p.achievements_unlocked.lookup "first_step" with
        | some v => some v
        | none => if mins.length ≥ 1 then some now_iso else none) ∧
      ((reconcile_profile_from_history p mins hd today now_iso).achievements_unlocked.lookup
          "on_fire" =
        match p.achievements_unlocked.lookup "on_fire" with
        | some v => some v
        | none =>
          if ∃ s ∈ hd, 7 ≤ currentStreakDB today s then some now_iso else none) ∧
      ((reconcile_profile_from_history p mins hd today now_iso).achievements_unlocked.lookup
          "ten_hours" =
        match p.achievements_unlocked.lookup "ten_hours" with
        | some v => some v
        | none =>
          if (reconcile_profile_from_history p mins hd today now_iso).total_minutes_logged ≥ 600
          then some now_iso else none)) := by
  constructor
  · intro p c cs tot now_iso
    refine ⟨?_, ?_, ?_⟩
    · rw [apply_unlocked_eq, addAchievement_lookup_other _ _ _ (by decide),
        addAchievement_lookup_other _ _ _ (by decide), addAchievement_lookup_self]
      cases p.achievements_unlocked.lookup "first_step" <;>
        simp [decide_eq_true_eq]
    · rw [apply_unlocked_eq, addAchievement_lookup_other _ _ _ (by decide),
        addAchievement_lookup_self, addAchievement_lookup_other _ _ _ (by decide)]
      cases p.achievements_unlocked.lookup "on_fire" <;>
        simp [decide_eq_true_eq]
    · rw [apply_unlocked_eq, addAchievement_lookup_self,
        addAchievement_lookup_other _ _ _ (by decide),
        addAchievement_lookup_other _ _ _ (by decide)]
      cases p.achievements_unlocked.lookup "ten_hours" <;>
        simp [decide_eq_true_eq]
  · intro p mins hd today now_iso
    have hminutes := reconcile_minutes_eq p mins hd today now_iso
    have hiff : 7 ≤ maxStreakFold (hd.map (fun s => currentStreakDB today s)) ↔
        ∃ s ∈ hd, 7 ≤ currentStreakDB today s := by
      rw [maxStreakFold_ge_iff (by omega)]
      constructor
      · rintro ⟨x, hx, hcx⟩
        obtain ⟨s, hs, rfl⟩ := List.mem_map.1 hx
        exact ⟨s, hs, hcx⟩
      · rintro ⟨s, hs, hcs⟩
        exact ⟨_, List.mem_map_of_mem _ hs, hcs⟩
    refine ⟨?_, ?_, ?_⟩
    · rw [reconcile_unlocked_eq, addAchievement_lookup_other _ _ _ (by decide),
        addAchievement_lookup_other _ _ _ (by decide), addAchievement_lookup_self]
      cases p.achievements_unlocked.lookup "first_step" <;>
        simp [decide_eq_true_eq]
    · rw [reconcile_unlocked_eq, addAchievement_lookup_other _ _ _ (by decide),
        addAchievement_lookup_self, addAchievement_lookup_other _ _ _ (by decide)]
      cases p.achievements_unlocked.lookup "on_fire" <;>
        simp [decide_eq_true_eq, hiff]
    · rw [reconcile_unlocked_eq, addAchievement_lookup_self,
        addAchievement_lookup_other _ _ _ (by decide),
        addAchievement_lookup_other _ _ _ (by decide), hminutes]
      cases p.achievements_unlocked.lookup "ten_hours" <;>
        simp [decide_eq_true_eq]

/-- Claim C7: `reconcile_profile_from_history` only adds achievements:
every key of the previous achievements map survives with its original
timestamp value unchanged, and the map never decreases in size. -/
theorem C7_reconcile_only_adds (p : PlayerProfile) (mins : List (Option Int))
    (hd : List (Finset Int)) (today : Int) (now_iso : String) :
    (∀ k v : String, p.achievements_unlocked.lookup k = some v →
      (reconcile_profile_from_history p mins hd today now_iso).achievements_unlocked.lookup k
        = some v) ∧
    p.achievements_unlocked.length ≤
      (reconcile_profile_from_history p mins hd today now_iso).achievements_unlocked.length := by
  rw [reconcile_unlocked_eq]
  constructor
  · intro k v hkv
    exact addAchievement_lookup_mono (addAchievement_lookup_mono
      (addAchievement_lookup_mono hkv))
  · exact le_trans (addAchievement_length_le _ _ _ _)
      (le_trans (addAchievement_length_le _ _ _ _)
        (addAchievement_length_le _ _ _ _))

/-- Claim C6: if a check-in already exists for the given habit and date,
the `CheckInToday` mutation returns `created = false`, leaves the player
profile (total_xp, level, total_minutes_logged, achievements_unlocked)
unchanged, and does not touch the stored check-in rows, so the existing
check-in's `minutes_spent` is not overwritten and XP is never awarded twice
for the same (habit, date) pair. -/
theorem C6_duplicate_checkin_frame (st : HabitState) (today : Int)
    (dateArg : Option Int) (m : Option Int) (other : Nat) (now_iso : String)
    (h : ∃ c ∈ st.checkins, c.date = dateArg.getD today) :
    (checkInToday st today dateArg m other now_iso).created = false ∧
    (checkInToday st today dateArg m other now_iso).state.profile = st.profile ∧
    (checkInToday st today dateArg m other now_iso).state.checkins = st.checkins := by
  obtain ⟨c, hc, hdate⟩ := h
  have hfind : (st.checkins.find? (fun x => x.date == dateArg.getD today)).isSome := by
    rw [List.find?_isSome]
    exact ⟨c, hc, by simp [hdate]⟩
  unfold checkInToday
  dsimp only
  cases hf : st.checkins.find? (fun x => x.date == dateArg.getD today) with
  | none =>
    rw [hf] at hfind
    simp at hfind
  | some ex =>
    exact ⟨rfl, rfl, rfl⟩

/-- Claim C1: for every habit, `current_streak` returns the number of
consecutive calendar days ending at today (today, yesterday, ...) on each
of which the habit has at least one check-in, and in particular returns 0
whenever the habit has no check-in dated today. -/
theorem C1_current_streak (today : Int) (prefetched : Bool) (S : Finset Int) :
    (∀ i : Nat, i < current_streak today prefetched S →
      today - (i : Int) ∈ S) ∧
    today - (current_streak today prefetched S : Int) ∉ S ∧
    (today ∉ S → current_streak today prefetched S = 0) := by
  have heq : current_streak today prefetched S = streakWalk S today := by
    cases prefetched with
    | true => simp [current_streak]
    | false =>
      simp only [current_streak, Bool.false_eq_true, if_false]
      exact currentStreakDB_eq today S
  rw [heq]
  exact ⟨(streakWalk_spec S today).1, (streakWalk_spec S today).2,
    fun h => streakWalk_of_notMem h⟩

/-- Claim C8: for a fixed set of check-in dates, the in-memory backward
day-walk and the database-backed descending scan of `current_streak`
return the same value, and check-ins dated after today affect neither
path. -/
theorem C8_paths_agree (today : Int) (S : Finset Int) :
    current_streak today true S = current_streak today false S ∧
    (∀ b : Bool, current_streak today b (S.filter (fun d => d ≤ today)) =
      current_streak today b S) := by
  have hdb : ∀ T : Finset Int, current_streak today false T = streakWalk T today := by
    intro T
    simp only [current_streak, Bool.false_eq_true, if_false]
    exact currentStreakDB_eq today T
  have htrue : ∀ T : Finset Int, current_streak today true T = streakWalk T today := by
    intro T
    simp [current_streak]
  constructor
  · rw [hdb, htrue]
  · intro b
    cases b with
    | true => rw [htrue, htrue, streakWalk_filter_le]
    | false => rw [hdb, hdb, streakWalk_filter_le]

/-- Claim C10: `last_7_days_count` and the `last_7_days_count_anno`
annotation of `with_habit_stats` count exactly the habit's check-ins whose
date lies in the inclusive 7-day window from `today - 6` through `today`
(check-in rows of one habit have pairwise distinct dates). -/
theorem C10_last7_window (today : Int) (rows : List Int) (h : rows.Nodup) :
    last_7_days_count today rows =
      (rows.toFinset ∩ Finset.Icc (today - 6) today).card ∧
    last_7_days_count_anno today rows =
      (rows.toFinset ∩ Finset.Icc (today - 6) today).card := by
  constructor
  · have h1 : (rows.filter (fun d => decide (today - 6 ≤ d ∧ d ≤ today))).Nodup :=
      h.filter _
    unfold last_7_days_count
    rw [← List.toFinset_card_of_nodup h1, List.toFinset_filter]
    congr 1
    ext x
    simp [Finset.mem_Icc]
  · unfold last_7_days_count_anno
    congr 1
    ext x
    simp [Finset.mem_Icc]

/-! ## Concrete-input witnesses -/

/-- Witness for C1: a habit with no check-in dated today has streak 0. -/
theorem C1_witness : current_streak 5 true ∅ = 0 :=
  (C1_current_streak 5 true ∅).2.2 (by decide)

/-- Witness for C3: 250 total XP is level 2. -/
theorem C3_witness : (2 : Int) = level_from_xp 250 :=
  (C3_level_from_xp 250 (by decide)).2.2.2.1 2 (by decide) (by decide) (by decide)

/-- Witness for C5: the dates 0,1,2,5 contain a run of length 3. -/
theorem C5_witness : 3 ≤ best_streak ({0, 1, 2, 5} : Finset Int) :=
  (C5_best_streak_max_run {0, 1, 2, 5}).2.1 3
    ⟨0, by
      intro i hi
      interval_cases i <;> decide⟩

/-- Witness for C6: checking in again on an already-checked date changes
nothing. -/
theorem C6_witness :
    (checkInToday ⟨[⟨5, some 30, 12⟩], ⟨12, 1, 30, [("first_step", "t0")]⟩⟩
      5 (some 5) (some 30) 0 "t1").created = false ∧
    (checkInToday ⟨[⟨5, some 30, 12⟩], ⟨12, 1, 30, [("first_step", "t0")]⟩⟩
      5 (some 5) (some 30) 0 "t1").state.profile =
      ⟨12, 1, 30, [("first_step", "t0")]⟩ ∧
    (checkInToday ⟨[⟨5, some 30, 12⟩], ⟨12, 1, 30, [("first_step", "t0")]⟩⟩
      5 (some 5) (some 30) 0 "t1").state.checkins = [⟨5, some 30, 12⟩] :=
  C6_duplicate_checkin_frame
    ⟨[⟨5, some 30, 12⟩], ⟨12, 1, 30, [("first_step", "t0")]⟩⟩
    5 (some 5) (some 30) 0 "t1"
    ⟨⟨5, some 30, 12⟩, by decide, by decide⟩

/-- Witness for C7: an already-unlocked achievement keeps its timestamp
through reconciliation. -/
theorem C7_witness :
    (reconcile_profile_from_history ⟨0, 1, 0, [("first_step", "t0")]⟩ [] [] 0
      "t1").achievements_unlocked.lookup "first_step" = some "t0" :=
  (C7_reconcile_only_adds ⟨0, 1, 0, [("first_step", "t0")]⟩ [] [] 0 "t1").1
    "first_step" "t0" rfl

/-- Witness for C9: a negative XP total yields level 1, and the walk over a
singleton date set is bounded by its cardinality. -/
theorem C9_witness :
    level_from_xp (-5) = 1 ∧ streakWalk {0} 0 ≤ ({0} : Finset Int).card :=
  ⟨C9_termination.2 (-5) (by decide), C9_termination.1 {0} 0⟩

/-- Witness for C10: with check-ins on days 0, 3 and 10 and today = 10, the
7-day window counts the set-intersection with the window interval. -/
theorem C10_witness :
    last_7_days_count 10 [0, 3, 10] =
      (([0, 3, 10] : List Int).toFinset ∩ Finset.Icc ((10 : Int) - 6) 10).card ∧
    last_7_days_count_anno 10 [0, 3, 10] =
      (([0, 3, 10] : List Int).toFinset ∩ Finset.Icc ((10 : Int) - 6) 10).card :=
  C10_last7_window 10 [0, 3, 10] (by decide)

end HabitTracker
